import Mathlib

/-!
Verification of the Hybrid Retrieval & Indexing Engine of `H_ollama_gpt`.

This file gives a shallow embedding of the core components described in
`spec.md` and implemented under `src/`:

* the tokenizer and BM25 keyword retriever (`src/core/retrievers.py`,
  `BM25Retriever`),
* the sharded variant (`DistributedBM25`),
* the persisted index (`PersistedBM25Retriever`, imported by the code but
  absent from the tree, hence modelled from the spec),
* reciprocal rank fusion (`src/services/rag_service.py`,
  `RAGService._fuse_results_rrf`),
* the re-ranking fallback of `src/rag_service.py`
  (`RAGService.answer_question_stream`),
* the embedding cache (`src/core/caching.py`),
* the circuit breaker (`src/core/circuit_breaker.py`),
* semantic breakpoint detection (`src/core/chunkers.py`,
  `SemanticChunker.find_breakpoints`).

Python floats are modelled as exact rationals, except for the chunker's
cosine similarity whose square roots force real numbers.  The IDF values of
the external `rank_bm25` library (a third-party dependency, not part of this
repository; the spec leaves `IDF(t)` unspecified as well) are taken as a
function parameter `idf`.
-/

namespace HOllama

/-! ### Tokenizer

`src/core/retrievers.py` line 20:
`self.tokenizer = lambda text: re.findall(r'\b\w+\b', text.lower())`.
On the lower-cased text this collects the maximal runs of word characters
(alphanumeric or underscore). -/

def isWordChar (c : Char) : Bool := c.isAlphanum || c = '_'

/-- Collect maximal runs of word characters; `acc` is the current run,
in reverse order. -/
def tokenizeAux : List Char → List Char → List String
  | [], acc => if acc.isEmpty then [] else [String.mk acc.reverse]
  | c :: cs, acc =>
    if isWordChar c then tokenizeAux cs (c :: acc)
    else if acc.isEmpty then tokenizeAux cs []
    else String.mk acc.reverse :: tokenizeAux cs []

/-- `re.findall(r'\b\w+\b', text.lower())` — lower-casing is per
character. -/
def tokenize (text : String) : List String :=
  tokenizeAux (text.data.map Char.toLower) []

/-! ### Stable descending sort by a rational key

`BM25Retriever.retrieve` orders documents by descending score
(`np.argsort` on the selected scores, reversed), `DistributedBM25.retrieve`
and the re-ranking stage use Python's stable `sorted(..., reverse=True)` on
the score component.  We model all of them with one stable insertion sort:
an element is placed before an existing one only when its key is strictly
larger, so equal keys keep their original relative order.  (NumPy's
`argpartition`/`argsort` leave the order among equal scores unspecified;
the stable order is one admissible resolution and no claim below depends
on the order among equal scores.) -/

def insertByKeyDesc {α : Type} (key : α → ℚ) (x : α) : List α → List α
  | [] => [x]
  | y :: ys => if key y < key x then x :: y :: ys else y :: insertByKeyDesc key x ys

def sortByKeyDesc {α : Type} (key : α → ℚ) (l : List α) : List α :=
  l.foldl (fun acc x => insertByKeyDesc key x acc) []

theorem length_insertByKeyDesc {α : Type} (key : α → ℚ) (x : α) (l : List α) :
    (insertByKeyDesc key x l).length = l.length + 1 := by
  induction l with
  | nil => rfl
  | cons y ys ih =>
    simp only [insertByKeyDesc]
    split <;> simp [ih]

theorem mem_insertByKeyDesc {α : Type} {key : α → ℚ} {x z : α} {l : List α} :
    z ∈ insertByKeyDesc key x l ↔ z = x ∨ z ∈ l := by
  induction l with
  | nil => simp [insertByKeyDesc]
  | cons y ys ih =>
    simp only [insertByKeyDesc]
    split
    · simp
    · simp only [List.mem_cons, ih]
      tauto

theorem pairwise_insertByKeyDesc {α : Type} {key : α → ℚ} {x : α} {l : List α}
    (h : l.Pairwise (fun a b => key b ≤ key a)) :
    (insertByKeyDesc key x l).Pairwise (fun a b => key b ≤ key a) := by
  induction l with
  | nil => simp [insertByKeyDesc]
  | cons y ys ih =>
    rcases List.pairwise_cons.mp h with ⟨hy, hys⟩
    simp only [insertByKeyDesc]
    split
    · rename_i hlt
      refine List.pairwise_cons.mpr ⟨?_, h⟩
      intro z hz
      rcases List.mem_cons.mp hz with rfl | hz
      · exact le_of_lt hlt
      · exact le_trans (hy z hz) (le_of_lt hlt)
    · rename_i hnlt
      refine List.pairwise_cons.mpr ⟨?_, ih hys⟩
      intro z hz
      rcases mem_insertByKeyDesc.mp hz with rfl | hz
      · exact not_lt.mp hnlt
      · exact hy z hz

theorem length_sortByKeyDesc {α : Type} (key : α → ℚ) (l : List α) :
    (sortByKeyDesc key l).length = l.length := by
  suffices h : ∀ acc : List α,
      (l.foldl (fun acc x => insertByKeyDesc key x acc) acc).length
        = acc.length + l.length by
    simpa using h []
  induction l with
  | nil => intro acc; simp
  | cons y ys ih =>
    intro acc
    simp only [List.foldl_cons, ih, length_insertByKeyDesc, List.length_cons]
    omega

theorem mem_sortByKeyDesc {α : Type} {key : α → ℚ} {z : α} {l : List α} :
    z ∈ sortByKeyDesc key l ↔ z ∈ l := by
  suffices h : ∀ acc : List α,
      z ∈ l.foldl (fun acc x => insertByKeyDesc key x acc) acc ↔ z ∈ acc ∨ z ∈ l by
    simpa using h []
  induction l with
  | nil => intro acc; simp
  | cons y ys ih =>
    intro acc
    simp only [List.foldl_cons, ih, mem_insertByKeyDesc, List.mem_cons]
    tauto

theorem pairwise_sortByKeyDesc {α : Type} (key : α → ℚ) (l : List α) :
    (sortByKeyDesc key l).Pairwise (fun a b => key b ≤ key a) := by
  suffices h : ∀ acc : List α, acc.Pairwise (fun a b => key b ≤ key a) →
      (l.foldl (fun acc x => insertByKeyDesc key x acc) acc).Pairwise
        (fun a b => key b ≤ key a) by
    exact h [] (by simp)
  induction l with
  | nil => intro acc hacc; simpa using hacc
  | cons y ys ih =>
    intro acc hacc
    exact ih _ (pairwise_insertByKeyDesc hacc)

/-! ### BM25 scoring

`BM25Retriever.fit` hands the tokenized corpus to the external library
`rank_bm25.BM25Okapi(corpus, k1, b)` and `retrieve` calls
`self.bm25.get_scores(tokenized_query)`.  The library computes, for a
document `d` and query `q`,
`score(d, q) = Σ_{t ∈ q} idf(t) · tf(t,d)·(k1+1) / (tf(t,d) + k1·(1 - b + b·|d|/avgdl))`
(the formula the spec gives in §4.1).  The library's IDF values involve
logarithms and live outside this repository, and the spec leaves `IDF(t)`
unspecified, so `idf` is a parameter of the model; no claim below depends
on its values. -/

structure BM25Params where
  k1 : ℚ := 3 / 2
  b : ℚ := 3 / 4
deriving DecidableEq

/-- One summand of the BM25 score: the term-frequency part for token `t`
against document `doc`, scaled by `idf t`. -/
def bm25TermScore (p : BM25Params) (idf : String → ℚ) (avgdl : ℚ)
    (doc : List String) (t : String) : ℚ :=
  let tf : ℚ := doc.count t
  idf t * (tf * (p.k1 + 1)) / (tf + p.k1 * (1 - p.b + p.b * (doc.length : ℚ) / avgdl))

/-- `BM25Okapi.get_scores(tokenized_query)`: one score per corpus document,
in corpus order.  `avgdl` is the average tokenized document length. -/
def getScores (p : BM25Params) (idf : String → ℚ) (corpus : List (List String))
    (q : List String) : List ℚ :=
  let avgdl : ℚ := (corpus.map fun d => (d.length : ℚ)).sum / (corpus.length : ℚ)
  corpus.map fun d => (q.map (bm25TermScore p idf avgdl d)).sum

/-! ### `BM25Retriever` (`src/core/retrievers.py` lines 11-41)

The state carries the parallel `corpus` (tokenized) and `doc_ids` arrays;
`fitted` models whether `self.bm25` is non-`None`. -/

structure BM25Retriever where
  k1 : ℚ := 3 / 2
  b : ℚ := 3 / 4
  corpus : List (List String) := []
  doc_ids : List String := []
  fitted : Bool := false
deriving DecidableEq

namespace BM25Retriever

/-- `BM25Retriever.fit(documents, ids)`. -/
def fit (r : BM25Retriever) (documents ids : List String) : BM25Retriever :=
  { r with corpus := documents.map tokenize, doc_ids := ids, fitted := true }

/-- `BM25Retriever.retrieve(query, top_k)`.

* `if not self.bm25: return []` is the unfitted branch;
* `np.argpartition(scores, -top_k)` raises `ValueError: kth out of bounds`
  whenever `top_k > len(scores)` (and on an empty score array), modelled as
  `none`;
* otherwise the selected indices are ordered by descending score
  (`np.argsort(...)[::-1]`) and the `top_k` first are returned (for
  `top_k = 0` the slice `[-0:]` is the whole array, a Python quirk kept
  here).  The order among equal scores is unspecified in NumPy and
  modelled as stable. -/
def retrieve (r : BM25Retriever) (idf : String → ℚ) (query : String)
    (top_k : ℕ) : Option (List (String × ℚ)) :=
  if ¬ r.fitted then some []
  else
    let tokenized_query := tokenize query
    let scores := getScores ⟨r.k1, r.b⟩ idf r.corpus tokenized_query
    if r.corpus.length < top_k ∨ r.corpus.length = 0 then none
    else
      let order := sortByKeyDesc (fun i => scores.getD i 0) (List.range scores.length)
      let top := if top_k = 0 then order else order.take top_k
      some (top.map fun i => (r.doc_ids.getD i "", scores.getD i 0))

end BM25Retriever

/-! ### `DistributedBM25` (`src/core/retrievers.py` lines 43-98) -/

structure DistributedBM25 where
  shard_size : ℕ
  shards : List BM25Retriever := []
  doc_id_to_shard : List (String × ℕ) := []
deriving DecidableEq

namespace DistributedBM25

def init (shard_size : ℕ) : DistributedBM25 := { shard_size := shard_size }

/-- Append a tokenized document and its id to the last shard. -/
def appendToLast (doc doc_id : String) : List BM25Retriever → List BM25Retriever
  | [] => []
  | [s] =>
    [{ s with
       corpus := s.corpus ++ [tokenize doc]
       doc_ids := s.doc_ids ++ [doc_id] }]
  | s :: s' :: rest => s :: appendToLast doc doc_id (s' :: rest)

/-- Update of `doc_id_to_shard[doc_id] = i` on the insertion-ordered map. -/
def setShardIdx (doc_id : String) (i : ℕ) : List (String × ℕ) → List (String × ℕ)
  | [] => [(doc_id, i)]
  | (j, v) :: rest =>
    if j = doc_id then (j, i) :: rest else (j, v) :: setShardIdx doc_id i rest

/-- One iteration of the loop in `add_documents`: open a new shard when
there is none or the current (last) one is full, then append to the last
shard and record its index. -/
def addOne (ds : DistributedBM25) (doc doc_id : String) : DistributedBM25 :=
  let freshShard : BM25Retriever := {}
  let shards :=
    if ds.shards = [] ∨ ds.shard_size ≤ (ds.shards.getLastD freshShard).corpus.length
    then ds.shards ++ [freshShard] else ds.shards
  { ds with
    shards := appendToLast doc doc_id shards,
    doc_id_to_shard := setShardIdx doc_id (shards.length - 1) ds.doc_id_to_shard }

/-- The rebuild loop at the end of `add_documents`:
`shard.bm25 = BM25Okapi(shard.corpus, k1=settings.BM25_K1, b=settings.BM25_B)`
for every non-empty shard (settings defaults: `k1 = 1.5`, `b = 0.75`). -/
def refit (s : BM25Retriever) : BM25Retriever :=
  if s.corpus = [] then s else { s with k1 := 3 / 2, b := 3 / 4, fitted := true }

/-- `DistributedBM25.add_documents(docs, doc_ids)`. -/
def add_documents (ds : DistributedBM25) (docs doc_ids : List String) :
    DistributedBM25 :=
  let ds' := (docs.zip doc_ids).foldl (fun s p => addOne s p.1 p.2) ds
  { ds' with shards := ds'.shards.map refit }

/-- The merge loop of `DistributedBM25.retrieve`: walk the globally sorted
results, keep the first occurrence of each `doc_id`, and stop once `top_k`
results are collected (the bound is checked after appending, so `top_k = 0`
still yields one element when any is available — a quirk kept faithfully). -/
def mergeDedup (top_k : ℕ) : List (String × ℚ) → List String → ℕ → List (String × ℚ)
  | [], _, _ => []
  | (i, s) :: rest, seen, cnt =>
    if i ∈ seen then mergeDedup top_k rest seen cnt
    else if top_k ≤ cnt + 1 then [(i, s)]
    else (i, s) :: mergeDedup top_k rest (i :: seen) (cnt + 1)

/-- `DistributedBM25.retrieve(query, top_k)`: each shard is asked for
`top_k*2` candidates; a raising shard (see `BM25Retriever.retrieve`) makes
the whole gathered call fail.  Results are flattened, sorted by descending
shard-local score (Python's stable `sorted`), deduplicated keeping the
first occurrence, and truncated to `top_k`. -/
def retrieve (ds : DistributedBM25) (idf : String → ℚ) (query : String)
    (top_k : ℕ) : Option (List (String × ℚ)) :=
  (ds.shards.mapM fun s : BM25Retriever => s.retrieve idf query (top_k * 2)).map
    fun shard_results =>
    mergeDedup top_k (sortByKeyDesc (fun p => p.2) shard_results.flatten) [] 0

end DistributedBM25

/-! ### `PersistedBM25Retriever` -/

/-- Modelled from the spec: `PersistedBM25Retriever` is imported from
`core.retrievers` by `src/core/__init__.py`, `src/core/chunkers.py`,
`src/rag_service.py` and `src/document_processor.py`, but its definition is
absent from the source tree.  Per spec §4.1 its state is the parallel
`corpus` (tokenized) and `doc_ids` arrays. -/
structure PersistedBM25Retriever where
  corpus : List (List String) := []
  doc_ids : List String := []
deriving DecidableEq

/-- Modelled from the spec: the persisted snapshot "containing the parallel
`corpus` (tokenized) and `doc_ids` arrays" (spec §4.1). -/
structure Snapshot where
  corpus : List (List String)
  doc_ids : List String
deriving DecidableEq

namespace PersistedBM25Retriever

/-- Modelled from the spec (§4.1): `index_documents(texts, ids)` tokenizes
each text and appends the new documents to the corpus (the file lock and
on-disk merge have no observable effect on the single-writer state). -/
def index_documents (r : PersistedBM25Retriever) (texts ids : List String) :
    PersistedBM25Retriever :=
  { corpus := r.corpus ++ texts.map tokenize, doc_ids := r.doc_ids ++ ids }

/-- Modelled from the spec (§4.1): `save` persists the snapshot. -/
def save (r : PersistedBM25Retriever) : Snapshot :=
  { corpus := r.corpus, doc_ids := r.doc_ids }

/-- Modelled from the spec (§4.1): `load` rebuilds the index from the
snapshot. -/
def load (s : Snapshot) : PersistedBM25Retriever :=
  { corpus := s.corpus, doc_ids := s.doc_ids }

/-- Modelled from the spec (§4.1): `retrieve(query, top_k)` returns the
`top_k` documents by descending BM25 score (defaults `k1 = 1.5`,
`b = 0.75`), excluding zero-score documents, ties broken by insertion
order; empty if the index is empty or the query tokenizes to nothing. -/
def retrieve (r : PersistedBM25Retriever) (idf : String → ℚ) (query : String)
    (top_k : ℕ) : List (String × ℚ) :=
  let tokenized_query := tokenize query
  if r.corpus = [] ∨ tokenized_query = [] then []
  else
    let scores := getScores {} idf r.corpus tokenized_query
    let order := sortByKeyDesc (fun i => scores.getD i 0) (List.range scores.length)
    ((order.filter fun i => 0 < scores.getD i 0).take top_k).map
      fun i => (r.doc_ids.getD i "", scores.getD i 0)

/-- A sequence of `index_documents` calls. -/
def indexBatches (r : PersistedBM25Retriever) (batches : List (List String × List String)) :
    PersistedBM25Retriever :=
  batches.foldl (fun s b => s.index_documents b.1 b.2) r

end PersistedBM25Retriever

/-! ### Reciprocal rank fusion
(`src/services/rag_service.py`, `RAGService._fuse_results_rrf`, lines 163-193)

The function receives the semantic hits (parallel `ids` and `distances`
lists of the vector-store reply) and the keyword hits (a list of
`(doc_id, score)` pairs).  `scores` is a `defaultdict(float)` — an
insertion-ordered map with default `0` — updated by

* `for rank, (doc_id, distance) in enumerate(zip(sem_ids, distances)):
  scores[doc_id] += 1 / (k + rank)` — the rank here is zero-based;
* `for rank, (doc_id, score) in enumerate(keyword, 1):
  scores[doc_id] += 1 / (k + rank)` — this enumeration starts at 1.

The map is then sorted by descending value (Python's stable `sorted`) and
the first `n_results` ids are returned.

(`reciprocal_rank_fusion`, the variant called from `src/rag_service.py`, is
imported from `core.retrievers` but not defined anywhere under the source
tree; the present `_fuse_results_rrf` is the fusion implementation the
repository contains.) -/

/-- `scores[doc_id] += c` on a `defaultdict(float)` modelled as an
insertion-ordered association list. -/
def addScore (id : String) (c : ℚ) : List (String × ℚ) → List (String × ℚ)
  | [] => [(id, c)]
  | (j, v) :: rest =>
    if j = id then (j, v + c) :: rest else (j, v) :: addScore id c rest

/-- Association-list lookup (first match). -/
def lookupScore (id : String) : List (String × ℚ) → Option ℚ
  | [] => none
  | (j, v) :: rest => if j = id then some v else lookupScore id rest

/-- The `scores` map built by the two accumulation loops of
`_fuse_results_rrf`. -/
def fuse_scores (sem_ids : List String) (distances : List ℚ)
    (keyword : List (String × ℚ)) (k : ℚ) : List (String × ℚ) :=
  let afterSem := (sem_ids.zip distances).enum.foldl
    (fun acc p => addScore p.2.1 (1 / (k + p.1)) acc) []
  (keyword.enum).foldl (fun acc p => addScore p.2.1 (1 / (k + p.1 + 1)) acc) afterSem

/-- `RAGService._fuse_results_rrf(semantic, keyword, n_results, k=60)`:
the ids of the score map, sorted by descending fused score and truncated
to `n_results` (the code puts this one list in both the `documents` and
`ids` slots of its reply). -/
def fuse_results_rrf (sem_ids : List String) (distances : List ℚ)
    (keyword : List (String × ℚ)) (n_results : ℕ) (k : ℚ := 60) : List String :=
  let scores := fuse_scores sem_ids distances keyword k
  let sorted_docs := sortByKeyDesc (fun p => p.2) scores
  (sorted_docs.take n_results).map fun p => p.1

/-! ### Re-ranking fallback
(`src/rag_service.py`, `RAGService.answer_question_stream`, lines 184-198)

After fusion the stream holds `final_docs` (the fused candidates in RRF
order).  If a cross-encoder is loaded and there are candidates, every
`(query, doc)` pair is scored, the pairs are sorted by descending score
(stable), and docs with `score > -10.0` are kept; if that filter keeps
nothing, the code falls back to `final_docs[:3]`, otherwise it keeps
`filtered_docs[:top_k]`.  Without a cross-encoder it returns
`final_docs[:top_k]`.  The cross-encoder scores are a parameter. -/

def rerank_stage (has_cross_encoder : Bool) (scores : List ℚ)
    (final_docs : List String) (top_k : ℕ) : List String :=
  if has_cross_encoder ∧ final_docs ≠ [] then
    let scored_docs := sortByKeyDesc (fun p => p.2) (final_docs.zip scores)
    let filtered_docs := (scored_docs.filter fun p => -10 < p.2).map fun p => p.1
    if filtered_docs = [] ∧ final_docs ≠ [] then final_docs.take 3
    else filtered_docs.take top_k
  else final_docs.take top_k

/-! ### Embedding cache (`src/core/caching.py`)

`EmbeddingCache.get` hashes the text (`blake2b`, 16-byte digest, hex) and
looks `emb:{digest}` up in the `RedisCache`, which prefixes keys with
`rag:`; `set` stores under TTL 7200 seconds (2 hours).  The digest function
is a parameter `h`: only its determinism matters below.  The external
Redis store is modelled as an association list of
`(full key, value, ttl)` entries, newest first (a Redis `SET` overwrites,
which lookup-first prepending preserves). -/

structure EmbeddingCacheState where
  entries : List (String × List ℚ × ℕ) := []
deriving DecidableEq

def cacheLookup (key : String) : List (String × List ℚ × ℕ) → Option (List ℚ)
  | [] => none
  | (j, v, _) :: rest => if j = key then some v else cacheLookup key rest

namespace EmbeddingCache

/-- The full Redis key of a text: `rag:` (RedisCache) ++ `emb:` ++ digest. -/
def fullKey (h : String → String) (text : String) : String :=
  "rag:" ++ ("emb:" ++ h text)

/-- `EmbeddingCache.get(text)`. -/
def get (h : String → String) (st : EmbeddingCacheState) (text : String) :
    Option (List ℚ) :=
  cacheLookup (fullKey h text) st.entries

/-- `EmbeddingCache.set(text, embedding)` — stores under TTL 7200 s. -/
def store (h : String → String) (st : EmbeddingCacheState) (text : String)
    (embedding : List ℚ) : EmbeddingCacheState :=
  { entries := (fullKey h text, embedding, 7200) :: st.entries }

/-- Result of one `get_or_create` call: the returned vector, the cache
state afterwards, and whether `embed_fn` was invoked. -/
structure GocResult where
  value : List ℚ
  state : EmbeddingCacheState
  invoked : Bool
deriving DecidableEq

/-- `EmbeddingCache.get_or_create(text, embed_fn)`: return the cached
vector if present, otherwise invoke `embed_fn(text)`, store the result
(TTL 7200 s) and return it. -/
def get_or_create (h : String → String) (st : EmbeddingCacheState)
    (text : String) (embed_fn : String → List ℚ) : GocResult :=
  match get h st text with
  | some cached => { value := cached, state := st, invoked := false }
  | none =>
    let embedding := embed_fn text
    { value := embedding, state := store h st text embedding, invoked := true }

end EmbeddingCache

/-! ### Circuit breaker (`src/core/circuit_breaker.py`)

`CircuitBreaker.__call__` wraps the protected function.  One wrapped call
at wall-clock time `now` (the code reads `time.time()` on entry and again
when recording a failure; both reads are modelled by the same `now`) with
outcome `success` of the wrapped function is:

```
if state == "OPEN":
    if now - last_failure_time > recovery_timeout: state = "HALF-OPEN"
    else: raise CircuitBreakerOpenException   # rejected, f not invoked
try: result = f(...)
     if state == "HALF-OPEN": state = "CLOSED"; failures = 0
     return result
except: failures += 1; last_failure_time = now
        if failures >= failure_threshold: state = "OPEN"
        raise
```
-/

inductive CircuitState
  | closed
  | opened
  | halfOpen
deriving DecidableEq

structure CircuitBreaker where
  failure_threshold : ℕ := 5
  recovery_timeout : ℚ := 60
  failures : ℕ := 0
  last_failure_time : ℚ := 0
  state : CircuitState := .closed
deriving DecidableEq

inductive CallResult
  | ok
  | err
  | rejected
deriving DecidableEq

namespace CircuitBreaker

/-- `CircuitBreaker(failure_threshold, recovery_timeout)`. -/
def init (failure_threshold : ℕ) (recovery_timeout : ℚ) : CircuitBreaker :=
  { failure_threshold := failure_threshold, recovery_timeout := recovery_timeout }

/-- The `if self.state == "OPEN"` prologue: `none` is the
`CircuitBreakerOpenException` rejection (wrapped function not invoked),
`some` the state in which the call is attempted. -/
def gate (now : ℚ) (cb : CircuitBreaker) : Option CircuitBreaker :=
  if cb.state = .opened then
    if cb.recovery_timeout < now - cb.last_failure_time then
      some { cb with state := .halfOpen }
    else none
  else some cb

/-- The `try`/`except` body once the call is attempted. -/
def attempt (now : ℚ) (success : Bool) (cb : CircuitBreaker) :
    CallResult × CircuitBreaker :=
  if success then
    if cb.state = .halfOpen then
      (.ok, { cb with state := .closed, failures := 0 })
    else (.ok, cb)
  else
    (.err, { cb with
      failures := cb.failures + 1
      last_failure_time := now
      state := if cb.failure_threshold ≤ cb.failures + 1 then .opened else cb.state })

/-- One wrapped call. -/
def step (now : ℚ) (success : Bool) (cb : CircuitBreaker) :
    CallResult × CircuitBreaker :=
  match gate now cb with
  | none => (.rejected, cb)
  | some cb1 => attempt now success cb1

/-- A sequence of wrapped calls, each given as `(time, outcome)`. -/
def run (cb : CircuitBreaker) (events : List (ℚ × Bool)) : CircuitBreaker :=
  events.foldl (fun c e => (step e.1 e.2 c).2) cb

/-- States reachable from `cb0` by wrapped calls. -/
inductive Reachable (cb0 : CircuitBreaker) : CircuitBreaker → Prop
  | refl : Reachable cb0 cb0
  | step (now : ℚ) (success : Bool) {cb : CircuitBreaker} :
      Reachable cb0 cb → Reachable cb0 (step now success cb).2

/-- The breaker's state machine as the spec describes it (§4.7 and claim
C2): OPEN rejects while `now - last_failure_time ≤ recovery_timeout` and
otherwise moves to HALF-OPEN before attempting; a HALF-OPEN success resets
to CLOSED with `failures = 0`; a HALF-OPEN failure increments `failures`,
records the failure time and returns to OPEN unconditionally; CLOSED passes
calls through, counts failures and opens when `failures ≥ threshold`. -/
def specStep (now : ℚ) (success : Bool) (cb : CircuitBreaker) :
    CallResult × CircuitBreaker :=
  if cb.state = .opened ∧ now - cb.last_failure_time ≤ cb.recovery_timeout then
    (.rejected, cb)
  else
    let cb1 := if cb.state = .opened then { cb with state := .halfOpen } else cb
    if success then
      if cb1.state = .halfOpen then
        (.ok, { cb1 with state := .closed, failures := 0 })
      else (.ok, cb1)
    else
      if cb1.state = .halfOpen then
        (.err, { cb1 with
          failures := cb1.failures + 1
          last_failure_time := now
          state := .opened })
      else
        (.err, { cb1 with
          failures := cb1.failures + 1
          last_failure_time := now
          state := if cb.failure_threshold ≤ cb1.failures + 1 then .opened
                   else cb1.state })

end CircuitBreaker

/-! ### Semantic breakpoints (`src/core/chunkers.py` lines 40-52)

`SemanticChunker.find_breakpoints(embeddings, threshold=0.7)` computes, for
each adjacent pair, `np.dot(e[i-1], e[i]) /
(np.linalg.norm(e[i-1]) * np.linalg.norm(e[i] * 1e-10))` and records a
breakpoint at `i` when that value is below the threshold.  Note the
`* 1e-10` sits INSIDE the second norm, scaling the whole similarity by
`1e10`.  The float arithmetic is modelled over the reals. -/

def dotList (a b : List ℝ) : ℝ := (List.zipWith (· * ·) a b).sum

/-- `np.linalg.norm`: the Euclidean norm of a vector. -/
noncomputable def normList (a : List ℝ) : ℝ :=
  Real.sqrt ((a.map fun x => x * x).sum)

/-- `embeddings[i] * 1e-10`: NumPy elementwise scaling. -/
def scaleList (c : ℝ) (a : List ℝ) : List ℝ := a.map fun x => x * c

/-- The tiny constant `1e-10` of the source. -/
noncomputable def eps10 : ℝ := 1 / 10 ^ 10

/-- The similarity value the code actually computes for an adjacent pair. -/
noncomputable def codeSimilarity (a b : List ℝ) : ℝ :=
  dotList a b / (normList a * normList (scaleList eps10 b))

/-- Cosine similarity — what `find_breakpoints`'s documentation and the
spec (§4.4) describe. -/
noncomputable def cosineSimilarity (a b : List ℝ) : ℝ :=
  dotList a b / (normList a * normList b)

/-- The loop `for i in range(1, len(embeddings))`, with `prev` the
`(i-1)`-st embedding and `i` the current index. -/
noncomputable def breaksFrom (threshold : ℝ) : List ℝ → List (List ℝ) → ℕ → List ℕ
  | _, [], _ => []
  | prev, e :: es, i =>
    (if codeSimilarity prev e < threshold then [i] else [])
      ++ breaksFrom threshold e es (i + 1)

/-- `SemanticChunker.find_breakpoints(embeddings, threshold)`. -/
noncomputable def find_breakpoints (embeddings : List (List ℝ))
    (threshold : ℝ) : List ℕ :=
  match embeddings with
  | [] => []
  | e :: es => 0 :: breaksFrom threshold e es 1

/-! ## Supporting lemmas -/

namespace DistributedBM25

/-- The document/id append performed by `appendToLast` on the last shard. -/
def bump (doc doc_id : String) (s : BM25Retriever) : BM25Retriever :=
  { s with corpus := s.corpus ++ [tokenize doc], doc_ids := s.doc_ids ++ [doc_id] }

theorem mem_appendToLast {doc doc_id : String} {l : List BM25Retriever}
    {s' : BM25Retriever} (h : s' ∈ appendToLast doc doc_id l) :
    s' ∈ l.dropLast ∨ (l ≠ [] ∧ s' = bump doc doc_id (l.getLastD {})) := by
  induction l with
  | nil => simp [appendToLast] at h
  | cons s rest ih =>
    match rest, h with
    | [], h =>
      simp only [appendToLast, List.mem_singleton] at h
      exact Or.inr ⟨by simp, by simp [h, bump]⟩
    | s'' :: rest', h =>
      simp only [appendToLast, List.mem_cons] at h
      rcases h with rfl | h
      · exact Or.inl (by simp)
      · rcases ih h with h' | ⟨_, h'⟩
        · exact Or.inl (by simpa using Or.inr h')
        · exact Or.inr ⟨by simp, by simpa using h'⟩

theorem addOne_shard_size (ds : DistributedBM25) (doc doc_id : String) :
    (ds.addOne doc doc_id).shard_size = ds.shard_size := rfl

/-- Size invariant: one loop iteration of `add_documents` keeps every
shard at or below `shard_size` (provided `shard_size ≥ 1`). -/
theorem addOne_size_inv {ds : DistributedBM25} (hss : 1 ≤ ds.shard_size)
    (hinv : ∀ s ∈ ds.shards, s.corpus.length ≤ ds.shard_size)
    (doc doc_id : String) :
    ∀ s ∈ (ds.addOne doc doc_id).shards, s.corpus.length ≤ ds.shard_size := by
  intro s' hs'
  simp only [addOne] at hs'
  set fresh : BM25Retriever := {} with hfresh
  by_cases hc : ds.shards = [] ∨ ds.shard_size ≤ (ds.shards.getLastD fresh).corpus.length
  · rw [if_pos hc] at hs'
    rcases mem_appendToLast hs' with h | ⟨-, h⟩
    · rw [List.dropLast_concat] at h
      exact hinv _ h
    · rw [List.getLastD_concat] at h
      subst h
      simpa [bump] using hss
  · rw [if_neg hc] at hs'
    push_neg at hc
    obtain ⟨hne, hlast⟩ := hc
    rcases mem_appendToLast hs' with h | ⟨-, h⟩
    · exact hinv _ (List.dropLast_subset _ h)
    · subst h
      simpa [bump] using hlast

theorem refit_corpus (s : BM25Retriever) : (refit s).corpus = s.corpus := by
  unfold refit
  split <;> rfl

/-- `add_documents` keeps every shard at or below `shard_size`. -/
theorem add_documents_size_inv {ds : DistributedBM25} (hss : 1 ≤ ds.shard_size)
    (hinv : ∀ s ∈ ds.shards, s.corpus.length ≤ ds.shard_size)
    (docs doc_ids : List String) :
    ∀ s ∈ (ds.add_documents docs doc_ids).shards,
      s.corpus.length ≤ ds.shard_size := by
  unfold add_documents
  suffices h : ∀ (ps : List (String × String)) (d : DistributedBM25),
      d.shard_size = ds.shard_size →
      (∀ s ∈ d.shards, s.corpus.length ≤ ds.shard_size) →
      ∀ s ∈ (ps.foldl (fun s p => s.addOne p.1 p.2) d).shards,
        s.corpus.length ≤ ds.shard_size by
    intro s hs
    simp only [List.mem_map] at hs
    obtain ⟨s0, hs0, rfl⟩ := hs
    rw [refit_corpus]
    exact h (docs.zip doc_ids) ds rfl hinv s0 hs0
  intro ps
  induction ps with
  | nil => intro d _ hd; simpa using hd
  | cons p ps ih =>
    intro d hsz hd
    simp only [List.foldl_cons]
    refine ih _ (by simp [addOne_shard_size, hsz]) ?_
    have := @addOne_size_inv d (by omega) (by simpa [hsz] using hd) p.1 p.2
    simpa [hsz] using this

end DistributedBM25

theorem getD_map_zero (c : List (List String)) (i : ℕ) :
    (c.map fun _ => (0 : ℚ)).getD i 0 = 0 := by
  induction c generalizing i with
  | nil => simp
  | cons d c ih => cases i <;> simp [ih]

theorem length_getScores (p : BM25Params) (idf : String → ℚ)
    (corpus : List (List String)) (q : List String) :
    (getScores p idf corpus q).length = corpus.length := by
  simp [getScores]

/-- On an empty token list every BM25 score is `0`. -/
theorem getScores_nil (p : BM25Params) (idf : String → ℚ)
    (corpus : List (List String)) :
    getScores p idf corpus [] = corpus.map fun _ => (0 : ℚ) := by
  simp [getScores]

namespace BM25Retriever

/-- Shape of a successful `retrieve` on a fitted index: exactly `top_k`
pairs, sorted by descending score, and all scores `0` when the query
tokenizes to nothing. -/
theorem retrieve_shape (r : BM25Retriever) (idf : String → ℚ) (query : String)
    {top_k : ℕ} (hfit : r.fitted = true) (h1 : 1 ≤ top_k)
    (h2 : top_k ≤ r.corpus.length) :
    ∃ l, r.retrieve idf query top_k = some l ∧ l.length = top_k ∧
      l.Pairwise (fun a b => b.2 ≤ a.2) ∧
      (tokenize query = [] → ∀ pr ∈ l, pr.2 = 0) := by
  have hne : ¬ (r.corpus.length < top_k ∨ r.corpus.length = 0) := by omega
  have hk0 : ¬ top_k = 0 := by omega
  rw [retrieve]
  simp only [hfit, Bool.true_eq_false, not_false_eq_true, if_false, hne, if_neg,
    hk0, ite_false, not_true_eq_false]
  refine ⟨_, rfl, ?_, ?_, ?_⟩
  · rw [List.length_map, List.length_take, length_sortByKeyDesc,
      List.length_range, length_getScores]
    omega
  · refine List.Pairwise.map _ ?_
      ((pairwise_sortByKeyDesc _ _).sublist (List.take_sublist _ _))
    intro i j hij
    exact hij
  · intro hq pr hpr
    simp only [List.mem_map] at hpr
    obtain ⟨i, -, rfl⟩ := hpr
    simp only [hq, getScores_nil]
    exact getD_map_zero r.corpus i

/-- `np.argpartition(scores, -top_k)` raises when `top_k` exceeds the
corpus size of a fitted index. -/
theorem retrieve_raises (r : BM25Retriever) (idf : String → ℚ) (query : String)
    {top_k : ℕ} (hfit : r.fitted = true) (hlt : r.corpus.length < top_k) :
    r.retrieve idf query top_k = none := by
  rw [retrieve]
  simp [hfit, hlt]

end BM25Retriever

theorem mapM_eq_none {α β : Type} {f : α → Option β} {l : List α} {x : α}
    (hx : x ∈ l) (hfx : f x = none) : l.mapM f = none := by
  induction l with
  | nil => simp at hx
  | cons a l ih =>
    rw [List.mapM_cons]
    rcases List.mem_cons.mp hx with rfl | hx
    · rw [hfx]; rfl
    · cases hfa : f a
      · rfl
      · simp only [hfa, Option.bind_eq_bind, Option.some_bind, ih hx]
        rfl

namespace DistributedBM25

/-- Every shard produced by `add_documents` is non-empty and fitted. -/
theorem add_documents_shards_fitted (ss : ℕ) (docs doc_ids : List String) :
    ∀ s ∈ ((init ss).add_documents docs doc_ids).shards,
      s.fitted = true ∧ s.corpus ≠ [] := by
  unfold add_documents
  suffices h : ∀ (ps : List (String × String)) (d : DistributedBM25),
      (∀ s ∈ d.shards, s.corpus ≠ []) →
      ∀ s ∈ (ps.foldl (fun s p => s.addOne p.1 p.2) d).shards, s.corpus ≠ [] by
    intro s hs
    simp only [List.mem_map] at hs
    obtain ⟨s0, hs0, rfl⟩ := hs
    have hne : s0.corpus ≠ [] := h (docs.zip doc_ids) (init ss) (by simp [init]) s0 hs0
    constructor
    · simp [refit, hne]
    · simpa [refit_corpus] using hne
  intro ps
  induction ps with
  | nil => intro d hd; simpa using hd
  | cons p ps ih =>
    intro d hd
    simp only [List.foldl_cons]
    refine ih _ ?_
    intro s hs
    simp only [addOne] at hs
    rcases mem_appendToLast hs with h | ⟨-, h⟩
    · split at h
      · rw [List.dropLast_concat] at h
        exact hd _ h
      · exact hd _ (List.dropLast_subset _ h)
    · subst h
      simp [bump]

/-- If any shard's per-shard call raises, the gathered retrieval raises. -/
theorem retrieve_raises_of_shard {ds : DistributedBM25} {s : BM25Retriever}
    (idf : String → ℚ) (query : String) (top_k : ℕ) (hs : s ∈ ds.shards)
    (hsf : s.fitted = true) (hslen : s.corpus.length < top_k * 2) :
    ds.retrieve idf query top_k = none := by
  rw [retrieve]
  rw [mapM_eq_none hs (BM25Retriever.retrieve_raises s idf query hsf hslen)]
  rfl

end DistributedBM25

namespace CircuitBreaker

/-- Invariant of the breaker: off CLOSED the failure counter has reached
the threshold, the resting state is never HALF-OPEN (HALF-OPEN only occurs
transiently inside a call), and the configuration fields are those of the
initial breaker. -/
def Inv (th : ℕ) (timeout : ℚ) (cb : CircuitBreaker) : Prop :=
  (cb.state ≠ .closed → th ≤ cb.failures) ∧ cb.state ≠ .halfOpen ∧
    cb.failure_threshold = th ∧ cb.recovery_timeout = timeout

theorem inv_init (th : ℕ) (timeout : ℚ) : Inv th timeout (init th timeout) := by
  refine ⟨fun h => absurd rfl h, by simp [init], rfl, rfl⟩

theorem gate_closed {cb : CircuitBreaker} (h : cb.state = .closed) (now : ℚ) :
    gate now cb = some cb := by
  simp [gate, h]

theorem gate_opened_within {cb : CircuitBreaker} (h : cb.state = .opened)
    {now : ℚ} (hw : now - cb.last_failure_time ≤ cb.recovery_timeout) :
    gate now cb = none := by
  simp [gate, h, not_lt.mpr hw]

theorem gate_opened_elapsed {cb : CircuitBreaker} (h : cb.state = .opened)
    {now : ℚ} (hw : cb.recovery_timeout < now - cb.last_failure_time) :
    gate now cb = some { cb with state := .halfOpen } := by
  simp [gate, h, hw]

theorem attempt_success_halfOpen {cb : CircuitBreaker} (h : cb.state = .halfOpen)
    (now : ℚ) : attempt now true cb = (.ok, { cb with state := .closed, failures := 0 }) := by
  simp [attempt, h]

theorem attempt_success_other {cb : CircuitBreaker} (h : cb.state ≠ .halfOpen)
    (now : ℚ) : attempt now true cb = (.ok, cb) := by
  simp [attempt, h]

theorem attempt_failure (cb : CircuitBreaker) (now : ℚ) :
    attempt now false cb = (.err, { cb with
      failures := cb.failures + 1
      last_failure_time := now
      state := if cb.failure_threshold ≤ cb.failures + 1 then .opened
               else cb.state }) := by
  simp [attempt]

theorem step_of_gate_none {cb : CircuitBreaker} {now : ℚ}
    (hg : gate now cb = none) (success : Bool) :
    step now success cb = (.rejected, cb) := by
  simp [step, hg]

theorem step_of_gate_some {cb cb1 : CircuitBreaker} {now : ℚ}
    (hg : gate now cb = some cb1) (success : Bool) :
    step now success cb = attempt now success cb1 := by
  simp [step, hg]

theorem inv_step {th : ℕ} {timeout : ℚ} {cb : CircuitBreaker}
    (h : Inv th timeout cb) (now : ℚ) (success : Bool) :
    Inv th timeout (step now success cb).2 := by
  obtain ⟨h1, h2, h3, h4⟩ := h
  rcases hst : cb.state with _ | _ | _
  · -- CLOSED
    rw [step_of_gate_some (gate_closed hst now) success]
    cases success
    · rw [attempt_failure]
      refine ⟨?_, ?_, h3, h4⟩
      · intro hne
        show th ≤ cb.failures + 1
        by_cases hc : cb.failure_threshold ≤ cb.failures + 1
        · omega
        · rw [show ({ cb with
              failures := cb.failures + 1
              last_failure_time := now
              state := if cb.failure_threshold ≤ cb.failures + 1 then .opened
                       else cb.state } : CircuitBreaker).state
              = if cb.failure_threshold ≤ cb.failures + 1 then .opened
                else cb.state from rfl, if_neg hc, hst] at hne
          exact absurd rfl hne
      · show (if cb.failure_threshold ≤ cb.failures + 1 then CircuitState.opened
          else cb.state) ≠ .halfOpen
        split
        · simp
        · simp [hst]
    · rw [attempt_success_other (by simp [hst]) now]
      exact ⟨h1, h2, h3, h4⟩
  · -- OPEN
    have hth : th ≤ cb.failures := h1 (by simp [hst])
    by_cases hw : cb.recovery_timeout < now - cb.last_failure_time
    · rw [step_of_gate_some (gate_opened_elapsed hst hw) success]
      cases success
      · rw [attempt_failure]
        have hc : cb.failure_threshold ≤ cb.failures + 1 := by omega
        refine ⟨?_, ?_, h3, h4⟩
        · intro _
          show th ≤ cb.failures + 1
          omega
        · show (if cb.failure_threshold ≤ cb.failures + 1 then CircuitState.opened
            else CircuitState.halfOpen) ≠ .halfOpen
          rw [if_pos hc]
          simp
      · rw [attempt_success_halfOpen rfl now]
        exact ⟨fun hne => absurd rfl hne, by simp, h3, h4⟩
    · rw [step_of_gate_none (gate_opened_within hst (not_lt.mp hw)) success]
      exact ⟨h1, h2, h3, h4⟩
  · exact absurd hst h2

theorem reachable_inv {th : ℕ} {timeout : ℚ} {cb : CircuitBreaker}
    (h : Reachable (init th timeout) cb) : Inv th timeout cb := by
  induction h with
  | refl => exact inv_init th timeout
  | step now success _ ih => exact inv_step ih now success

/-- On invariant states the implementation agrees pointwise with the
spec-described state machine. -/
theorem step_eq_specStep {th : ℕ} {timeout : ℚ} {cb : CircuitBreaker}
    (h : Inv th timeout cb) (now : ℚ) (success : Bool) :
    step now success cb = specStep now success cb := by
  obtain ⟨h1, h2, h3, h4⟩ := h
  rcases hst : cb.state with _ | _ | _
  · -- CLOSED
    rw [step_of_gate_some (gate_closed hst now) success]
    cases success
    · rw [attempt_failure]
      simp [specStep, hst]
    · rw [attempt_success_other (by simp [hst]) now]
      simp [specStep, hst]
  · -- OPEN
    have hth : th ≤ cb.failures := h1 (by simp [hst])
    by_cases hw : cb.recovery_timeout < now - cb.last_failure_time
    · rw [step_of_gate_some (gate_opened_elapsed hst hw) success]
      have hw2 : ¬ now - cb.last_failure_time ≤ cb.recovery_timeout := not_le.mpr hw
      cases success
      · rw [attempt_failure]
        have hc : cb.failure_threshold ≤ cb.failures + 1 := by omega
        simp [specStep, hst, hw2, hc]
      · rw [attempt_success_halfOpen rfl now]
        simp [specStep, hst, hw2]
    · rw [step_of_gate_none (gate_opened_within hst (not_lt.mp hw)) success]
      have hw2 : now - cb.last_failure_time ≤ cb.recovery_timeout := not_lt.mp hw
      simp [specStep, hst, hw2]
  · exact absurd hst h2

/-- A successful call on a CLOSED breaker changes nothing. -/
theorem step_closed_success {cb : CircuitBreaker} (h : cb.state = .closed)
    (now : ℚ) : step now true cb = (.ok, cb) := by
  rw [step_of_gate_some (gate_closed h now) true,
    attempt_success_other (by simp [h]) now]

/-- A failing call on a CLOSED breaker increments the counter, records the
time, and opens the breaker exactly when the threshold is reached. -/
theorem step_closed_failure {cb : CircuitBreaker} (h : cb.state = .closed)
    (now : ℚ) :
    step now false cb = (.err, { cb with
      failures := cb.failures + 1
      last_failure_time := now
      state := if cb.failure_threshold ≤ cb.failures + 1 then .opened
               else cb.state }) := by
  rw [step_of_gate_some (gate_closed h now) false, attempt_failure]

/-- Number of failure outcomes in an event list. -/
def countFailures (events : List (ℚ × Bool)) : ℕ :=
  (events.filter fun e => !e.2).length

/-- As long as fewer failures than the remaining budget arrive, a CLOSED
breaker stays CLOSED and counts exactly the failures — successes leave the
counter untouched. -/
theorem run_closed_of_few_failures {cb : CircuitBreaker}
    (events : List (ℚ × Bool)) (h : cb.state = .closed)
    (hfew : cb.failures + countFailures events < cb.failure_threshold) :
    (run cb events).state = .closed ∧
      (run cb events).failures = cb.failures + countFailures events ∧
      (run cb events).failure_threshold = cb.failure_threshold := by
  induction events generalizing cb with
  | nil => simp [run, countFailures, h]
  | cons e es ih =>
    rcases e with ⟨t, success⟩
    cases success
    · have hcount : countFailures ((t, false) :: es) = countFailures es + 1 := by
        simp [countFailures, List.filter_cons]
      rw [hcount] at hfew
      have hrun : run cb ((t, false) :: es)
          = run (step t false cb).2 es := by simp [run]
      rw [hrun, step_closed_failure h]
      have hnotyet : ¬ cb.failure_threshold ≤ cb.failures + 1 := by omega
      have := @ih { cb with
        failures := cb.failures + 1
        last_failure_time := t
        state := if cb.failure_threshold ≤ cb.failures + 1 then .opened
                 else cb.state } (by simp [hnotyet, h])
        (by show cb.failures + 1 + countFailures es < cb.failure_threshold; omega)
      refine ⟨this.1, ?_, this.2.2⟩
      rw [this.2.1]
      show cb.failures + 1 + countFailures es = cb.failures + (countFailures es + 1)
      omega
    · have hcount : countFailures ((t, true) :: es) = countFailures es := by
        simp [countFailures, List.filter_cons]
      rw [hcount] at hfew
      have hrun : run cb ((t, true) :: es) = run (step t true cb).2 es := by
        simp [run]
      rw [hrun, step_closed_success h]
      exact ih h hfew

theorem run_append (cb : CircuitBreaker) (l1 l2 : List (ℚ × Bool)) :
    run cb (l1 ++ l2) = run (run cb l1) l2 := by
  simp [run, List.foldl_append]

/-- `failure_threshold` consecutive failures starting from a fresh breaker
leave it OPEN. -/
theorem run_failures_opens {th : ℕ} {timeout : ℚ} (hth : 1 ≤ th)
    (ts : List ℚ) (hts : ts.length = th) :
    (run (init th timeout) (ts.map fun t => (t, false))).state = .opened := by
  rcases List.eq_nil_or_concat ts with rfl | ⟨front, tl, rfl⟩
  · simp at hts
    omega
  · rw [List.concat_eq_append] at hts ⊢
    have hfront : front.length + 1 = th := by simpa using hts
    have hcount : countFailures (front.map fun t => (t, false)) = front.length := by
      simp [countFailures, List.filter_map, Function.comp_def]
    have hlt : (init th timeout).failures
        + countFailures (front.map fun t => (t, false))
        < (init th timeout).failure_threshold := by
      show 0 + countFailures (front.map fun t => (t, false)) < th
      rw [hcount]
      omega
    have hclosed := @run_closed_of_few_failures (init th timeout)
      (front.map fun t => (t, false)) rfl hlt
    rw [List.map_append, run_append, List.map_singleton]
    have hrunstep : run (run (init th timeout) (front.map fun t => (t, false)))
        [(tl, false)] = (step tl false
          (run (init th timeout) (front.map fun t => (t, false)))).2 := by
      simp [run]
    rw [hrunstep, step_closed_failure hclosed.1]
    have hcnt := hclosed.2.1
    have hthr := hclosed.2.2
    rw [hcount] at hcnt
    have hc : (run (init th timeout) (front.map fun t => (t, false))).failure_threshold
        ≤ (run (init th timeout) (front.map fun t => (t, false))).failures + 1 := by
      have : (init th timeout).failures = 0 := rfl
      have hthr2 : (init th timeout).failure_threshold = th := rfl
      omega
    simp [hc]


end CircuitBreaker

/-! ### Accumulation lemmas for rank fusion -/

theorem lookupScore_addScore (q id : String) (c : ℚ) (l : List (String × ℚ)) :
    lookupScore q (addScore id c l)
      = if q = id then some ((lookupScore q l).getD 0 + c) else lookupScore q l := by
  induction l with
  | nil =>
    by_cases hq : q = id
    · subst hq
      simp [addScore, lookupScore]
    · have hq2 : ¬ id = q := fun h => hq h.symm
      simp [addScore, lookupScore, hq, hq2]
  | cons p rest ih =>
    rcases p with ⟨j, v⟩
    by_cases hj : j = id
    · subst hj
      by_cases hq : q = j
      · subst hq
        simp [addScore, lookupScore]
      · have hq2 : ¬ j = q := fun h => hq h.symm
        simp [addScore, lookupScore, hq, hq2]
    · by_cases hjq : j = q
      · subst hjq
        have hq : ¬ j = id := hj
        simp [addScore, lookupScore, hj, hq]
      · simp [addScore, lookupScore, hj, hjq, ih]

/-- Per-id contribution of a batch of `(id, increment)` updates. -/
def contribOf (q : String) (l : List (String × ℚ)) : ℚ :=
  ((l.filter fun p => p.1 = q).map fun p => p.2).sum

theorem lookupScore_foldl_addScore (l : List (String × ℚ)) (acc : List (String × ℚ))
    (q : String) :
    lookupScore q (l.foldl (fun a p => addScore p.1 p.2 a) acc)
      = if q ∈ l.map Prod.fst ∨ (lookupScore q acc).isSome
        then some ((lookupScore q acc).getD 0 + contribOf q l)
        else none := by
  induction l generalizing acc with
  | nil =>
    cases hl : lookupScore q acc with
    | none => simp [hl, contribOf]
    | some v => simp [hl, contribOf]
  | cons p l ih =>
    rw [List.foldl_cons, ih, lookupScore_addScore]
    by_cases hq : q = p.1
    · have hq2 : p.1 = q := hq.symm
      have hcontrib : contribOf q (p :: l) = p.2 + contribOf q l := by
        simp [contribOf, List.filter_cons, hq2]
      rw [if_pos hq, hcontrib]
      simp [hq, add_assoc]
    · have hq2 : ¬ p.1 = q := fun h => hq h.symm
      have hcontrib : contribOf q (p :: l) = contribOf q l := by
        simp [contribOf, List.filter_cons, hq2]
      have hmem : (q ∈ (p :: l).map Prod.fst) ↔ (q ∈ l.map Prod.fst) := by
        simp [hq]
      rw [if_neg hq, hcontrib]
      simp only [hmem]

theorem map_fst_addScore (id : String) (c : ℚ) (l : List (String × ℚ)) :
    (addScore id c l).map Prod.fst
      = if id ∈ l.map Prod.fst then l.map Prod.fst else l.map Prod.fst ++ [id] := by
  induction l with
  | nil => simp [addScore]
  | cons p rest ih =>
    by_cases hj : p.1 = id
    · rw [show addScore id c (p :: rest) = (p.1, p.2 + c) :: rest from by
        simp [addScore, hj]]
      simp [hj]
    · have hj2 : ¬ id = p.1 := fun h => hj h.symm
      rw [show addScore id c (p :: rest) = (p.1, p.2) :: addScore id c rest from by
        simp [addScore, hj]]
      simp only [List.map_cons, ih]
      by_cases hmem : id ∈ rest.map Prod.fst
      · simp [hmem, hj2]
      · simp [hmem, hj2]

theorem nodup_map_fst_addScore {id : String} {c : ℚ} {l : List (String × ℚ)}
    (h : (l.map Prod.fst).Nodup) : ((addScore id c l).map Prod.fst).Nodup := by
  rw [map_fst_addScore]
  split
  · exact h
  · rename_i hnot
    rw [List.nodup_append]
    exact ⟨h, by simp, by simp [hnot]⟩

theorem nodup_map_fst_foldl_addScore (l : List (String × ℚ))
    {acc : List (String × ℚ)} (h : (acc.map Prod.fst).Nodup) :
    (((l.foldl (fun a p => addScore p.1 p.2 a) acc)).map Prod.fst).Nodup := by
  induction l generalizing acc with
  | nil => simpa using h
  | cons p l ih =>
    rw [List.foldl_cons]
    exact ih (nodup_map_fst_addScore h)

theorem perm_insertByKeyDesc {α : Type} (key : α → ℚ) (x : α) (l : List α) :
    (insertByKeyDesc key x l).Perm (x :: l) := by
  induction l with
  | nil => rfl
  | cons y ys ih =>
    simp only [insertByKeyDesc]
    split
    · rfl
    · exact (ih.cons y).trans (List.Perm.swap x y ys)

theorem contribOf_append (q : String) (l1 l2 : List (String × ℚ)) :
    contribOf q (l1 ++ l2) = contribOf q l1 + contribOf q l2 := by
  simp [contribOf, List.filter_append]

/-- The semantic contributions of `_fuse_results_rrf` as explicit
`(id, increment)` pairs: position `rank` (zero-based) contributes
`1 / (k + rank)`. -/
def rrfSemPairs (sem_ids : List String) (distances : List ℚ) (k : ℚ) :
    List (String × ℚ) :=
  (sem_ids.zip distances).enum.map fun p => (p.2.1, 1 / (k + (p.1 : ℚ)))

/-- The keyword contributions: position `rank` (zero-based) contributes
`1 / (k + rank + 1)` because of `enumerate(keyword, 1)`. -/
def rrfKeyPairs (keyword : List (String × ℚ)) (k : ℚ) : List (String × ℚ) :=
  keyword.enum.map fun p => (p.2.1, 1 / (k + (p.1 : ℚ) + 1))

theorem fuse_scores_eq_foldl (sem_ids : List String) (distances : List ℚ)
    (keyword : List (String × ℚ)) (k : ℚ) :
    fuse_scores sem_ids distances keyword k
      = ((rrfSemPairs sem_ids distances k) ++ (rrfKeyPairs keyword k)).foldl
          (fun a p => addScore p.1 p.2 a) [] := by
  simp [fuse_scores, rrfSemPairs, rrfKeyPairs, List.foldl_append, List.foldl_map]

theorem map_fst_rrfSemPairs (sem_ids : List String) (distances : List ℚ) (k : ℚ) :
    (rrfSemPairs sem_ids distances k).map Prod.fst
      = (sem_ids.zip distances).map Prod.fst := by
  calc (rrfSemPairs sem_ids distances k).map Prod.fst
      = (sem_ids.zip distances).enum.map fun p => p.2.1 := by
        simp [rrfSemPairs, List.map_map, Function.comp_def]
    _ = ((sem_ids.zip distances).enum.map Prod.snd).map Prod.fst := by
        rw [List.map_map]
        rfl
    _ = (sem_ids.zip distances).map Prod.fst := by rw [List.enum_map_snd]

theorem map_fst_rrfKeyPairs (keyword : List (String × ℚ)) (k : ℚ) :
    (rrfKeyPairs keyword k).map Prod.fst = keyword.map Prod.fst := by
  calc (rrfKeyPairs keyword k).map Prod.fst
      = keyword.enum.map fun p => p.2.1 := by
        simp [rrfKeyPairs, List.map_map, Function.comp_def]
    _ = (keyword.enum.map Prod.snd).map Prod.fst := by
        rw [List.map_map]
        rfl
    _ = keyword.map Prod.fst := by rw [List.enum_map_snd]

theorem contribOf_rrfSemPairs (q : String) (sem_ids : List String)
    (distances : List ℚ) (k : ℚ) :
    contribOf q (rrfSemPairs sem_ids distances k)
      = (((sem_ids.zip distances).enum.filter fun p => p.2.1 = q).map
          fun p => 1 / (k + (p.1 : ℚ))).sum := by
  simp [contribOf, rrfSemPairs, List.filter_map, List.map_map, Function.comp_def]

theorem contribOf_rrfKeyPairs (q : String) (keyword : List (String × ℚ)) (k : ℚ) :
    contribOf q (rrfKeyPairs keyword k)
      = ((keyword.enum.filter fun p => p.2.1 = q).map
          fun p => 1 / (k + (p.1 : ℚ) + 1)).sum := by
  simp [contribOf, rrfKeyPairs, List.filter_map, List.map_map, Function.comp_def]

/-- Pointwise value of the fused score map: an id collects `1 / (k + rank)`
for each zero-based semantic rank and `1 / (k + rank + 1)` for each
zero-based keyword rank at which it occurs. -/
theorem lookupScore_fuse_scores (q : String) (sem_ids : List String)
    (distances : List ℚ) (keyword : List (String × ℚ)) (k : ℚ) :
    lookupScore q (fuse_scores sem_ids distances keyword k)
      = if q ∈ (sem_ids.zip distances).map Prod.fst ∨ q ∈ keyword.map Prod.fst
        then some (
          (((sem_ids.zip distances).enum.filter fun p => p.2.1 = q).map
            fun p => 1 / (k + (p.1 : ℚ))).sum
          + ((keyword.enum.filter fun p => p.2.1 = q).map
            fun p => 1 / (k + (p.1 : ℚ) + 1)).sum)
        else none := by
  rw [fuse_scores_eq_foldl, lookupScore_foldl_addScore]
  rw [contribOf_append, contribOf_rrfSemPairs, contribOf_rrfKeyPairs]
  rw [List.map_append, map_fst_rrfSemPairs, map_fst_rrfKeyPairs]
  simp only [lookupScore, Option.isSome_none, Bool.false_eq_true, or_false,
    List.mem_append, Option.getD_none, zero_add]

theorem perm_sortByKeyDesc {α : Type} (key : α → ℚ) (l : List α) :
    (sortByKeyDesc key l).Perm l := by
  suffices h : ∀ acc : List α,
      (l.foldl (fun acc x => insertByKeyDesc key x acc) acc).Perm (acc ++ l) by
    simpa using h []
  induction l with
  | nil => intro acc; simp
  | cons y ys ih =>
    intro acc
    rw [List.foldl_cons]
    refine (ih (insertByKeyDesc key y acc)).trans ?_
    refine (((perm_insertByKeyDesc key y acc).append_right ys).trans ?_)
    exact List.perm_middle.symm.trans (by simp)

/-! ### Concrete similarity values for the chunker -/

theorem eps10_pos : (0 : ℝ) < eps10 := by
  rw [eps10]
  norm_num

theorem normList_34 : normList [(3 : ℝ), 4] = 5 := by
  have h : (([(3 : ℝ), 4]).map fun x => x * x).sum = 5 ^ 2 := by norm_num
  rw [normList, h, Real.sqrt_sq (by norm_num : (0 : ℝ) ≤ 5)]

theorem normList_scale_50 : normList (scaleList eps10 [(5 : ℝ), 0]) = 5 * eps10 := by
  have h : ((scaleList eps10 [(5 : ℝ), 0]).map fun x => x * x).sum = (5 * eps10) ^ 2 := by
    simp [scaleList]
    ring
  rw [normList, h, Real.sqrt_sq]
  exact mul_nonneg (by norm_num) (le_of_lt eps10_pos)

theorem dotList_cex : dotList [(3 : ℝ), 4] [(5 : ℝ), 0] = 15 := by
  simp [dotList]
  norm_num

theorem codeSimilarity_cex :
    codeSimilarity [(3 : ℝ), 4] [(5 : ℝ), 0] = 15 / (5 * (5 * eps10)) := by
  rw [codeSimilarity, dotList_cex, normList_34, normList_scale_50]

theorem cosineSimilarity_cex :
    cosineSimilarity [(3 : ℝ), 4] [(5 : ℝ), 0] = 3 / 5 := by
  have h : normList [(5 : ℝ), 0] = 5 := by
    have h5 : (([(5 : ℝ), 0]).map fun x => x * x).sum = 5 ^ 2 := by norm_num
    rw [normList, h5, Real.sqrt_sq (by norm_num : (0 : ℝ) ≤ 5)]
  rw [cosineSimilarity, dotList_cex, normList_34, h]
  norm_num

theorem codeSimilarity_cex_not_lt :
    ¬ codeSimilarity [(3 : ℝ), 4] [(5 : ℝ), 0] < 7 / 10 := by
  rw [codeSimilarity_cex, eps10]
  norm_num

/-! ## The claims -/

/-- C4: for any prior sequence of `index_documents` calls on the persisted
lexical index, executing `save` and then `load` reproduces an index whose
`retrieve` output is identical to the original's for every query and every
`top_k`.  (The persisted retriever is modelled from the spec, its code
being absent from the tree.) -/
theorem c4_persisted_index_round_trip (batches : List (List String × List String))
    (idf : String → ℚ) (query : String) (top_k : ℕ) :
    (PersistedBM25Retriever.load (PersistedBM25Retriever.save
        (PersistedBM25Retriever.indexBatches {} batches))).retrieve idf query top_k
      = (PersistedBM25Retriever.indexBatches {} batches).retrieve idf query top_k := by
  rfl

/-- C5: every shard holds at most `shard_size` documents — `add_documents`
appends each document to the current (last) shard, opening a new shard
first whenever the current one is full — and adding 5 documents with
`shard_size = 2` to an empty sharded index yields exactly 3 shards of
sizes 2, 2, 1. -/
theorem c5_shard_size_bound (ds : DistributedBM25) (docs doc_ids : List String)
    (hss : 1 ≤ ds.shard_size)
    (hinv : ∀ s ∈ ds.shards, s.corpus.length ≤ ds.shard_size) :
    (∀ s ∈ (ds.add_documents docs doc_ids).shards,
        s.corpus.length ≤ ds.shard_size) ∧
      (((DistributedBM25.init 2).add_documents
          ["d one", "d two", "d three", "d four", "d five"]
          ["i1", "i2", "i3", "i4", "i5"]).shards.map
        fun s => s.corpus.length) = [2, 2, 1] := by
  exact ⟨DistributedBM25.add_documents_size_inv hss hinv docs doc_ids, by decide⟩

/-- C5 witness: the invariant applied to the first shard of the concrete
5-document scenario. -/
theorem c5_shard_size_bound_witness :
    ((((DistributedBM25.init 2).add_documents
          ["d one", "d two", "d three", "d four", "d five"]
          ["i1", "i2", "i3", "i4", "i5"]).shards.get
        ⟨0, by decide⟩).corpus.length ≤ (DistributedBM25.init 2).shard_size) ∧
      (((DistributedBM25.init 2).add_documents
          ["d one", "d two", "d three", "d four", "d five"]
          ["i1", "i2", "i3", "i4", "i5"]).shards.map
        fun s => s.corpus.length) = [2, 2, 1] := by
  have h := c5_shard_size_bound (DistributedBM25.init 2)
    ["d one", "d two", "d three", "d four", "d five"]
    ["i1", "i2", "i3", "i4", "i5"] (by decide) (by decide)
  exact ⟨h.1 _ (List.get_mem _ _ _), h.2⟩

/-- C7: two sequential `get_or_create` calls with the same text invoke the
embedding function at most once: a miss on the first call computes the
vector and stores it under TTL 7200 s (2 hours) before returning it; the
second call returns the cached vector without invoking `embed_fn` and
without changing the cache. -/
theorem c7_embedding_cache_single_invocation (h : String → String)
    (st : EmbeddingCacheState) (text : String) (embed_fn : String → List ℚ) :
    (EmbeddingCache.get_or_create h
        (EmbeddingCache.get_or_create h st text embed_fn).state text
        embed_fn).invoked = false ∧
      (EmbeddingCache.get_or_create h
        (EmbeddingCache.get_or_create h st text embed_fn).state text
        embed_fn).value = (EmbeddingCache.get_or_create h st text embed_fn).value ∧
      (EmbeddingCache.get_or_create h
        (EmbeddingCache.get_or_create h st text embed_fn).state text
        embed_fn).state = (EmbeddingCache.get_or_create h st text embed_fn).state ∧
      ((EmbeddingCache.get_or_create h st text embed_fn).invoked = true
        ↔ EmbeddingCache.get h st text = none) ∧
      ((EmbeddingCache.get_or_create h st text embed_fn).invoked = true →
        (EmbeddingCache.get_or_create h st text embed_fn).value = embed_fn text ∧
        (EmbeddingCache.get_or_create h st text embed_fn).state.entries
          = (EmbeddingCache.fullKey h text, embed_fn text, 7200) :: st.entries) ∧
      ((EmbeddingCache.get_or_create h st text embed_fn).invoked = false →
        (EmbeddingCache.get_or_create h st text embed_fn).state = st) := by
  cases hget : EmbeddingCache.get h st text with
  | some v =>
    have h1 : EmbeddingCache.get_or_create h st text embed_fn
        = { value := v, state := st, invoked := false } := by
      rw [EmbeddingCache.get_or_create, hget]
    rw [h1]
    rw [EmbeddingCache.get_or_create, hget]
    simp [hget]
  | none =>
    have h1 : EmbeddingCache.get_or_create h st text embed_fn
        = { value := embed_fn text,
            state := EmbeddingCache.store h st text (embed_fn text),
            invoked := true } := by
      rw [EmbeddingCache.get_or_create, hget]
    have hget2 : EmbeddingCache.get h
        (EmbeddingCache.store h st text (embed_fn text)) text
        = some (embed_fn text) := by
      simp [EmbeddingCache.get, EmbeddingCache.store, cacheLookup]
    rw [h1, EmbeddingCache.get_or_create, hget2]
    simp [hget, EmbeddingCache.store]

/-- C8: when the minimum-score filter (`score > -10.0`) would remove every
re-ranked candidate, the stream returns the original top-3 fused
candidates unfiltered instead of an empty result. -/
theorem c8_rerank_total_rejection_fallback (scores : List ℚ)
    (final_docs : List String) (top_k : ℕ) (hne : final_docs ≠ [])
    (hall : ∀ s ∈ scores, s ≤ -10) :
    rerank_stage true scores final_docs top_k = final_docs.take 3 := by
  rw [rerank_stage]
  rw [if_pos ⟨rfl, hne⟩]
  have hfilter : (sortByKeyDesc (fun p => p.2) (final_docs.zip scores)).filter
      (fun p => -10 < p.2) = [] := by
    rw [List.filter_eq_nil_iff]
    intro p hp
    have hmem : p ∈ final_docs.zip scores := mem_sortByKeyDesc.mp hp
    have hsc : p.2 ∈ scores := (List.of_mem_zip hmem).2
    have := hall p.2 hsc
    simp only [decide_eq_true_eq, not_lt]
    linarith
  simp [hfilter, hne]

/-- C8 witness: four candidates all scored below the floor fall back to
the first three fused candidates. -/
theorem c8_rerank_total_rejection_fallback_witness :
    rerank_stage true [-12, -12, -12, -12] ["a", "b", "c", "d"] 2
      = ["a", "b", "c"] := by
  have h := c8_rerank_total_rejection_fallback [-12, -12, -12, -12]
    ["a", "b", "c", "d"] 2 (by decide)
    (by
      intro s hs
      simp only [List.mem_cons, List.not_mem_nil, or_false] at hs
      rcases hs with rfl | rfl | rfl | rfl <;> norm_num)
  simpa using h

/-- C10: on a fitted index, `retrieve` with `top_k` larger than the corpus
raises (`np.argpartition` index out of range) instead of returning the
available documents; consequently `DistributedBM25.retrieve`, which asks
every shard for `2*top_k` candidates, fails whenever some shard of the
(`add_documents`-built) sharded index holds fewer than `2*top_k`
documents. -/
theorem c10_top_k_overflow_raises (r : BM25Retriever) (idf : String → ℚ)
    (query : String) (top_k : ℕ) (hfit : r.fitted = true)
    (hlt : r.corpus.length < top_k) (ss : ℕ) (docs doc_ids : List String)
    (s : BM25Retriever)
    (hs : s ∈ ((DistributedBM25.init ss).add_documents docs doc_ids).shards)
    (hslen : s.corpus.length < top_k * 2) :
    r.retrieve idf query top_k = none ∧
      ((DistributedBM25.init ss).add_documents docs doc_ids).retrieve
        idf query top_k = none := by
  refine ⟨BM25Retriever.retrieve_raises r idf query hfit hlt, ?_⟩
  have hsf := (DistributedBM25.add_documents_shards_fitted ss docs doc_ids s hs).1
  exact DistributedBM25.retrieve_raises_of_shard idf query top_k hs hsf hslen

/-- C10 witness: a 1-document index queried with `top_k = 2`, and a
sharded index (`shard_size = 2`, 3 documents) whose second shard holds one
document, queried with `top_k = 2` (so each shard is asked for 4). -/
theorem c10_top_k_overflow_raises_witness :
    (BM25Retriever.fit {} ["only doc"] ["x1"]).retrieve (fun _ => 0) "q" 2
        = none ∧
      ((DistributedBM25.init 2).add_documents ["a b", "c d", "e f"]
        ["j1", "j2", "j3"]).retrieve (fun _ => 0) "q" 2 = none := by
  exact c10_top_k_overflow_raises (BM25Retriever.fit {} ["only doc"] ["x1"])
    (fun _ => 0) "q" 2 (by decide) (by decide) 2 ["a b", "c d", "e f"]
    ["j1", "j2", "j3"]
    (((DistributedBM25.init 2).add_documents ["a b", "c d", "e f"]
      ["j1", "j2", "j3"]).shards.get ⟨1, by decide⟩)
    (List.get_mem _ _ _) (by decide)

/-- C1 counterexample: on the spec's own three-document corpus, the query
`"???"` tokenizes to nothing, yet `retrieve(top_k=2)` returns two documents
with score `0` instead of the empty sequence — `retrieve` filters neither
zero-score documents nor empty-tokenizing queries.  (With no query token
every BM25 score is `0` whatever the IDF values are; `idf = 0` is one
concrete choice.) -/
theorem c1_counterexample :
    tokenize "???" = [] ∧
      (BM25Retriever.fit {} ["the quick brown fox",
        "machine learning is fascinating", "fox and hound"]
        ["d1", "d2", "d3"]).retrieve (fun _ => 0) "???" 2
        = some [("d1", 0), ("d2", 0)] := by
  refine ⟨by decide, ?_⟩
  have hcorp : (BM25Retriever.fit {} ["the quick brown fox",
      "machine learning is fascinating", "fox and hound"]
      ["d1", "d2", "d3"]).corpus = [["the", "quick", "brown", "fox"],
      ["machine", "learning", "is", "fascinating"], ["fox", "and", "hound"]] := by
    decide
  have hids : (BM25Retriever.fit {} ["the quick brown fox",
      "machine learning is fascinating", "fox and hound"]
      ["d1", "d2", "d3"]).doc_ids = ["d1", "d2", "d3"] := by decide
  have hfit : (BM25Retriever.fit {} ["the quick brown fox",
      "machine learning is fascinating", "fox and hound"]
      ["d1", "d2", "d3"]).fitted = true := by decide
  have htq : tokenize "???" = [] := by decide
  rw [BM25Retriever.retrieve]
  norm_num [hcorp, hids, hfit, htq, getScores, sortByKeyDesc, insertByKeyDesc,
    List.range, List.range.loop]

/-- C1 (amended): `BM25Retriever.retrieve` does not filter by score.  On a
fitted index with `1 ≤ top_k ≤ corpus size` it returns exactly `top_k`
`(doc_id, score)` pairs in descending score order, zero-score documents
included — when the query tokenizes to nothing every returned score is
`0` — and it returns the empty sequence only when the index has not been
fitted. -/
theorem c1_amended_retrieve_unfiltered (r : BM25Retriever) (idf : String → ℚ)
    (query : String) (top_k : ℕ) (h1 : 1 ≤ top_k)
    (h2 : top_k ≤ r.corpus.length) :
    (r.fitted = false → r.retrieve idf query top_k = some []) ∧
      (r.fitted = true → ∃ l, r.retrieve idf query top_k = some l ∧
        l.length = top_k ∧ l.Pairwise (fun a b => b.2 ≤ a.2) ∧
        (tokenize query = [] → ∀ pr ∈ l, pr.2 = 0)) := by
  constructor
  · intro hf
    rw [BM25Retriever.retrieve]
    simp [hf]
  · intro hf
    exact BM25Retriever.retrieve_shape r idf query hf h1 h2

/-- C1 witness: the amended statement instantiated on a concrete
three-document index with `top_k = 2`. -/
theorem c1_amended_retrieve_unfiltered_witness :
    ((BM25Retriever.fit {} ["a b", "c d", "e f"] ["d1", "d2", "d3"]).fitted
        = false →
      (BM25Retriever.fit {} ["a b", "c d", "e f"]
        ["d1", "d2", "d3"]).retrieve (fun _ => 1) "???" 2 = some []) ∧
      ((BM25Retriever.fit {} ["a b", "c d", "e f"] ["d1", "d2", "d3"]).fitted
          = true →
        ∃ l, (BM25Retriever.fit {} ["a b", "c d", "e f"]
            ["d1", "d2", "d3"]).retrieve (fun _ => 1) "???" 2 = some l ∧
          l.length = 2 ∧ l.Pairwise (fun a b => b.2 ≤ a.2) ∧
          (tokenize "???" = [] → ∀ pr ∈ l, pr.2 = 0)) :=
  c1_amended_retrieve_unfiltered
    (BM25Retriever.fit {} ["a b", "c d", "e f"] ["d1", "d2", "d3"])
    (fun _ => 1) "???" 2 (by decide) (by decide)

/-- C2: after `failure_threshold` consecutive failures the breaker is OPEN,
and on every reachable state one wrapped call behaves exactly as the spec's
state machine `specStep` prescribes: while
`now - last_failure_time ≤ recovery_timeout` an OPEN breaker rejects with
the distinguished circuit-open failure without invoking the wrapped
operation (same result for every outcome, state untouched); once the
window elapses the call is attempted in HALF-OPEN, where a success resets
to CLOSED with `failures = 0` and a failure increments `failures`, records
the failure time and returns to OPEN. -/
theorem c2_circuit_breaker_behavior (th : ℕ) (timeout : ℚ) (hth : 1 ≤ th)
    (ts : List ℚ) (hts : ts.length = th) (cb : CircuitBreaker)
    (hre : CircuitBreaker.Reachable (CircuitBreaker.init th timeout) cb)
    (now : ℚ) (success : Bool) :
    (CircuitBreaker.run (CircuitBreaker.init th timeout)
        (ts.map fun t => (t, false))).state = .opened ∧
      CircuitBreaker.step now success cb
        = CircuitBreaker.specStep now success cb :=
  ⟨CircuitBreaker.run_failures_opens hth ts hts,
    CircuitBreaker.step_eq_specStep (CircuitBreaker.reachable_inv hre) now success⟩

/-- C2 witness: threshold `1`, a single failure opens the breaker, and the
spec state machine agrees with the implementation on the initial state. -/
theorem c2_circuit_breaker_behavior_witness :
    (CircuitBreaker.run (CircuitBreaker.init 1 60)
        ([(0 : ℚ)].map fun t => (t, false))).state = .opened ∧
      CircuitBreaker.step 0 true (CircuitBreaker.init 1 60)
        = CircuitBreaker.specStep 0 true (CircuitBreaker.init 1 60) :=
  c2_circuit_breaker_behavior 1 60 (le_refl 1) [0] rfl
    (CircuitBreaker.init 1 60) .refl 0 true

/-- C9: a CLOSED success leaves the failure counter (and the whole state)
unchanged — the counter is reset only by a HALF-OPEN success — and on every
reachable non-CLOSED state `failures ≥ failure_threshold` holds, which is
what sends a HALF-OPEN failure back to OPEN; consequently
`failure_threshold` failures interleaved with any number of successes (not
only consecutive failures) drive the breaker to OPEN. -/
theorem c9_failure_counter_invariant (th : ℕ) (timeout : ℚ)
    (cb : CircuitBreaker)
    (hre : CircuitBreaker.Reachable (CircuitBreaker.init th timeout) cb)
    (now : ℚ) (os : List (ℚ × Bool))
    (hcount : CircuitBreaker.countFailures os + 1 = th) :
    (cb.state = .closed → CircuitBreaker.step now true cb = (.ok, cb)) ∧
      (cb.state ≠ .closed → th ≤ cb.failures) ∧
      (cb.state = .opened → timeout < now - cb.last_failure_time →
        (CircuitBreaker.step now false cb).2.state = .opened) ∧
      (CircuitBreaker.run (CircuitBreaker.init th timeout) os).state
        = .closed ∧
      (CircuitBreaker.run (CircuitBreaker.init th timeout) os).failures + 1
        = th ∧
      (CircuitBreaker.step now false
        (CircuitBreaker.run (CircuitBreaker.init th timeout) os)).2.state
        = .opened := by
  obtain ⟨h1, h2, h3, h4⟩ := CircuitBreaker.reachable_inv hre
  have hfew : (CircuitBreaker.init th timeout).failures
      + CircuitBreaker.countFailures os
      < (CircuitBreaker.init th timeout).failure_threshold := by
    show 0 + CircuitBreaker.countFailures os < th
    omega
  have hrun := CircuitBreaker.run_closed_of_few_failures os rfl hfew
  have hrunfail : (CircuitBreaker.run (CircuitBreaker.init th timeout)
      os).failures = CircuitBreaker.countFailures os := by
    have h0 : (CircuitBreaker.init th timeout).failures = 0 := rfl
    have := hrun.2.1
    rw [h0, Nat.zero_add] at this
    exact this
  have hrunth : (CircuitBreaker.run (CircuitBreaker.init th timeout)
      os).failure_threshold = th := hrun.2.2
  refine ⟨fun hcl => CircuitBreaker.step_closed_success hcl now, h1,
    ?_, hrun.1, by omega, ?_⟩
  · intro hop hw
    have hw2 : cb.recovery_timeout < now - cb.last_failure_time := by
      rw [h4]
      exact hw
    rw [CircuitBreaker.step_of_gate_some
      (CircuitBreaker.gate_opened_elapsed hop hw2) false,
      CircuitBreaker.attempt_failure]
    have hle : cb.failure_threshold ≤ cb.failures + 1 := by
      have := h1 (by simp [hop])
      omega
    simp [hle]
  · rw [CircuitBreaker.step_closed_failure hrun.1]
    have hle : (CircuitBreaker.run (CircuitBreaker.init th timeout)
        os).failure_threshold
        ≤ (CircuitBreaker.run (CircuitBreaker.init th timeout)
          os).failures + 1 := by
      omega
    simp [hle]

/-- C9 witness: threshold `1`, the empty event list, the initial state. -/
theorem c9_failure_counter_invariant_witness :
    ((CircuitBreaker.init 1 60).state = .closed →
      CircuitBreaker.step 0 true (CircuitBreaker.init 1 60)
        = (.ok, CircuitBreaker.init 1 60)) ∧
      ((CircuitBreaker.init 1 60).state ≠ .closed →
        1 ≤ (CircuitBreaker.init 1 60).failures) ∧
      ((CircuitBreaker.init 1 60).state = .opened →
        (60 : ℚ) < 0 - (CircuitBreaker.init 1 60).last_failure_time →
        (CircuitBreaker.step 0 false (CircuitBreaker.init 1 60)).2.state
          = .opened) ∧
      (CircuitBreaker.run (CircuitBreaker.init 1 60) []).state = .closed ∧
      (CircuitBreaker.run (CircuitBreaker.init 1 60) []).failures + 1 = 1 ∧
      (CircuitBreaker.step 0 false
        (CircuitBreaker.run (CircuitBreaker.init 1 60) [])).2.state
        = .opened :=
  c9_failure_counter_invariant 1 60 (CircuitBreaker.init 1 60) .refl 0 [] rfl

/-- C3 counterexample: with `k = 60`, the semantic (vector) hit `"a"` at
zero-based rank 0 receives fused score `1/60`, not the claimed
`1/(k + rank + 1) = 1/61` — the two input lists are scored by different
formulas — and with `n_results = 1` the function returns only one of the
two distinct doc_ids rather than all of them. -/
theorem c3_counterexample :
    fuse_scores ["a"] [0] [("b", 5)] 60 = [("a", 1 / 60), ("b", 1 / 61)] ∧
      (1 / 60 : ℚ) ≠ 1 / (60 + 0 + 1) ∧
      fuse_results_rrf ["a"] [0] [("b", 5)] 1 60 = ["a"] := by
  have h : ("b" : String) ≠ "a" := by decide
  have h2 : ("a" : String) ≠ "b" := by decide
  refine ⟨?_, by norm_num, ?_⟩
  · norm_num [fuse_scores, addScore, List.enum, h, h2]
  · norm_num [fuse_results_rrf, fuse_scores, addScore, sortByKeyDesc,
      insertByKeyDesc, List.enum, h, h2]

/-- C3 (amended): `_fuse_results_rrf` assigns every doc_id the fused score
`Σ 1/(k + rank)` over its zero-based ranks in the vector-ranked list plus
`Σ 1/(k + rank + 1)` over its zero-based ranks in the keyword-ranked list
(`k` defaults to 60; a document present in both lists accumulates both
contributions), and returns the distinct doc_ids sorted by descending
fused score (stable), truncated to the first `n_results`. -/
theorem c3_amended_rrf_formula (sem_ids : List String) (distances : List ℚ)
    (keyword : List (String × ℚ)) (k : ℚ) (n_results : ℕ) (q : String) :
    (lookupScore q (fuse_scores sem_ids distances keyword k)
      = if q ∈ (sem_ids.zip distances).map Prod.fst ∨ q ∈ keyword.map Prod.fst
        then some (
          (((sem_ids.zip distances).enum.filter fun p => p.2.1 = q).map
            fun p => 1 / (k + (p.1 : ℚ))).sum
          + ((keyword.enum.filter fun p => p.2.1 = q).map
            fun p => 1 / (k + (p.1 : ℚ) + 1)).sum)
        else none) ∧
      (sortByKeyDesc (fun p => p.2)
        (fuse_scores sem_ids distances keyword k)).Pairwise
        (fun a b => b.2 ≤ a.2) ∧
      (fuse_results_rrf sem_ids distances keyword n_results k).Nodup ∧
      fuse_results_rrf sem_ids distances keyword n_results k
        = ((sortByKeyDesc (fun p => p.2)
            (fuse_scores sem_ids distances keyword k)).take n_results).map
          fun p => p.1 := by
  refine ⟨lookupScore_fuse_scores q sem_ids distances keyword k,
    pairwise_sortByKeyDesc _ _, ?_, rfl⟩
  have hnodup : ((fuse_scores sem_ids distances keyword k).map Prod.fst).Nodup := by
    rw [fuse_scores_eq_foldl]
    exact nodup_map_fst_foldl_addScore _ (by simp)
  have hperm : ((sortByKeyDesc (fun p => p.2)
      (fuse_scores sem_ids distances keyword k)).map Prod.fst).Perm
      ((fuse_scores sem_ids distances keyword k).map Prod.fst) :=
    (perm_sortByKeyDesc _ _).map _
  have hsorted : ((sortByKeyDesc (fun p => p.2)
      (fuse_scores sem_ids distances keyword k)).map Prod.fst).Nodup :=
    hperm.nodup_iff.mpr hnodup
  show (((sortByKeyDesc (fun p => p.2)
    (fuse_scores sem_ids distances keyword k)).take n_results).map
      fun p => p.1).Nodup
  have hsub : (((sortByKeyDesc (fun p => p.2)
      (fuse_scores sem_ids distances keyword k)).take n_results).map
        fun p => p.1).Sublist
      ((sortByKeyDesc (fun p => p.2)
        (fuse_scores sem_ids distances keyword k)).map fun p => p.1) :=
    (List.take_sublist _ _).map _
  exact hsub.nodup hsorted

/-- C6: the code's similarity is the cosine scaled by `1e10` (the
`* 1e-10` of the source sits inside the second norm), so at
`embeddings = [[3,4],[5,0]]` with the default threshold `0.7` the true
cosine is `0.6 < 0.7` — the claim requires a breakpoint at index 1 — yet
`find_breakpoints` records none and returns `[0]`. -/
theorem c6_breakpoint_similarity_scaled :
    find_breakpoints [[(3 : ℝ), 4], [5, 0]] (7 / 10) = [0] ∧
      cosineSimilarity [(3 : ℝ), 4] [(5 : ℝ), 0] < 7 / 10 ∧
      codeSimilarity [(3 : ℝ), 4] [(5 : ℝ), 0]
        = cosineSimilarity [(3 : ℝ), 4] [(5 : ℝ), 0] * 10 ^ 10 := by
  refine ⟨?_, ?_, ?_⟩
  · have hcond := codeSimilarity_cex_not_lt
    simp [find_breakpoints, breaksFrom, hcond]
  · rw [cosineSimilarity_cex]
    norm_num
  · rw [codeSimilarity_cex, cosineSimilarity_cex, eps10]
    norm_num

end HOllama
